import Mathlib

/-
Verification of the GPU special-q lattice sieve driver
(gnfs/poly/stage1/stage1_sieve_gpu_sq.c).

The C file is shallowly embedded below.  Machine integers are modelled
as `Nat` with explicit `% 2^w` at the operations where the C code performs
fixed-width arithmetic; fixed-width struct fields carry their width as
hypotheses in the theorems.  The three nested batching loops of
`sieve_lattice_batch`, the generator-refill loops of `sieve_specialq_64`
and the round loop of `sieve_lattice_gpu_sq` are modelled as fuel-indexed
recursions returning `Option` (`none` = the C loop would not terminate
within the given fuel; every theorem below is stated on terminating runs,
and the fuel chosen at the wrappers is sufficient whenever the C loop
terminates).  Kernel launches, stop-flag reads and deadline reads are
recorded in an explicit event trace / oracle style, since they are the
observable interactions of this driver with its environment.
-/

namespace GpuSq

/-! ### BatchBuffer: `p_soa_var_t`, `store_p_soa`, `p_soa_var_reset` -/

/-- The host-side struct-of-arrays candidate buffer `p_soa_var_t`.
`num_p_alloc` is the capacity fixed by `p_soa_var_init`; `buf` holds the
`num_p` filled `(p, root)` slots (so `num_p = buf.length`). -/
structure p_soa_var_t where
  num_p_alloc : Nat
  buf : List (Nat × Nat)
deriving DecidableEq

/-- `store_p_soa` (stage1_sieve_gpu_sq.c, lines 50-62): append `(p, roots[i])`
for `i < num_roots` while `num_p < num_p_alloc`. -/
def store_p_soa (p : Nat) (roots : List Nat) (soa : p_soa_var_t) : p_soa_var_t :=
  { soa with
    buf := soa.buf ++ (roots.take (soa.num_p_alloc - soa.buf.length)).map (fun r => (p, r)) }

/-- `p_soa_var_reset` (lines 44-48): `num_p ← 0`, capacity untouched. -/
def p_soa_var_reset (soa : p_soa_var_t) : p_soa_var_t :=
  { soa with buf := [] }

/-! ### CollisionReducer: `found_t`, 128-bit reconstruction, `check_found` -/

/-- The per-work-item output record `found_t`.  In the C code the fields are
`uint32 p, q, k` and `uint64 proot, offset` (declared in
stage1_core_gpu/stage1_core_sq.h, which is not part of this repository; the
field set and widths are those used by `check_found`).  Width bounds are
carried as hypotheses in the theorems. -/
structure found_t where
  p : Nat
  q : Nat
  k : Nat
  proot : Nat
  offset : Nat
deriving DecidableEq

/-- Modelled from the spec: `mul64` is the 64x64 -> 128 bit full multiply
from the uint128 support header (not present under src/); the spec asks to
"multiply the offset by p² to a 128-bit product".  The product of two
64-bit values fits in 128 bits, so no reduction is applied. -/
def mul64 (a b : Nat) : Nat := (a % 2 ^ 64) * (b % 2 ^ 64)

/-- Modelled from the spec: `add128` is 128-bit addition from the uint128
support header (not present under src/): the sum is "carried in 128-bit
arithmetic". -/
def add128 (a b : Nat) : Nat := (a + b) % 2 ^ 128

/-- One call to the external `handle_collision` with the arguments
`check_found` passes: `f.p`, `f.q`, the special-q value and root looked up
at batch-local index `f.k + sq_offset`, and the reconstructed residue. -/
structure CollisionCall where
  p : Nat
  q : Nat
  sq : Nat
  sqroot : Nat
  res : Nat
deriving DecidableEq

/-- `check_found` (lines 65-94): walk the copied-back output array, skip
records with `p == 0`, and for each remaining record compute
`p2 = (uint64)p * p`, zero-extend `proot` to 128 bits
(the `proot.w[0..3]` assignments) and call the handler with
`res = add128(proot, mul64(offset, p2))`.  The result list is the sequence
of handler calls, in array order. -/
def check_found (sqp sqroot : List Nat) (sq_offset : Nat) : List found_t → List CollisionCall
  | [] => []
  | f :: rest =>
    if f.p = 0 then
      check_found sqp sqroot sq_offset rest
    else
      { p := f.p, q := f.q,
        sq := sqp.getD (f.k + sq_offset) 0,
        sqroot := sqroot.getD (f.k + sq_offset) 0,
        res := add128 (f.proot % 2 ^ 64) (mul64 f.offset ((f.p * f.p) % 2 ^ 64)) } ::
      check_found sqp sqroot sq_offset rest

/-- Refinement reference for claim C1, written from the spec's words: every
record with `value != 0` yields exactly one handler call whose residue is
`proot + offset * value²` at full precision; `value == 0` records are
skipped. -/
def check_found_spec (sqp sqroot : List Nat) (sq_offset : Nat) : List found_t → List CollisionCall
  | [] => []
  | f :: rest =>
    if f.p = 0 then
      check_found_spec sqp sqroot sq_offset rest
    else
      { p := f.p, q := f.q,
        sq := sqp.getD (f.k + sq_offset) 0,
        sqroot := sqroot.getD (f.k + sq_offset) 0,
        res := f.proot + f.offset * (f.p * f.p) } ::
      check_found_spec sqp sqroot sq_offset rest

/-! ### KernelInvoker: parameter layout (lines 126-167) -/

/-- Modelled from the spec: `CUDA_ALIGN_PARAM(i, align)` (macro from the
CUDA interface header, not present under src/) rounds the running byte
offset `i` up to the next multiple of `align` ("each field aligned per its
native size"). -/
def alignUp (off al : Nat) : Nat := ((off + al - 1) / al) * al

/-- The kind of each bound kernel parameter. -/
inductive PKind where
  | bufferRef
  | count32
  | scalar64
  | outputRef
deriving DecidableEq

/-- Byte size (= native alignment) of each parameter kind;
`ptrSize` is `sizeof(void*)` = `__alignof(gpu_ptr)`. -/
def paramSizeOf (ptrSize : Nat) : PKind → Nat
  | .bufferRef => ptrSize
  | .count32 => 4
  | .scalar64 => 8
  | .outputRef => ptrSize

/-- The exact binding order of lines 126-167: p buffer, num_p count,
q buffer, num_q count, sq buffer, num_sq count, 64-bit lattice size,
found (output) buffer. -/
def kernelParamOrder : List PKind :=
  [.bufferRef, .count32, .bufferRef, .count32, .bufferRef, .count32,
   .scalar64, .outputRef]

/-- Fold the align-then-advance pattern of lines 126-167 over a parameter
kind list, producing each parameter's byte offset. -/
def layoutFrom (ptrSize off : Nat) : List PKind → List (PKind × Nat)
  | [] => []
  | k :: ks =>
    let o := alignUp off (paramSizeOf ptrSize k)
    (k, o) :: layoutFrom ptrSize (o + paramSizeOf ptrSize k) ks

/-- The full parameter layout computed once before the batching loops
(lines 126-167), starting at offset 0. -/
def kernelParamLayout (ptrSize : Nat) : List (PKind × Nat) :=
  layoutFrom ptrSize 0 kernelParamOrder

/-! ### LatticeSearchDriver: chunk sizes and the triple loop (lines 169-282) -/

/-- Large-value (q) chunk size, lines 174-180:
`MIN(3*found_array_size, remaining)` then `MIN(.., Q_SOA_BATCH_SIZE)`,
then rounded down to a multiple of `threads_per_block`. -/
def largeChunk (fa rem qsoa tpb : Nat) : Nat :=
  let c := min (min (3 * fa) rem) qsoa
  c - c % tpb

/-- Small-value (p) chunk size, lines 205-208:
`MIN(found_array_size/3, remaining)` then `MIN(.., P_SOA_BATCH_SIZE)`;
not rounded. -/
def smallChunk (fa rem psoa : Nat) : Nat :=
  min (min (fa / 3) rem) psoa

/-- Special-q chunk size, lines 227-228: `MIN(SPECIALQ_BATCH_SIZE, remaining)`;
not rounded. -/
def specialChunk (sqsoa rem : Nat) : Nat :=
  min sqsoa rem

/-- Observable driver events: a kernel launch (grid width, current q / p / sq
chunk sizes) and a wall-clock deadline check. -/
inductive Ev where
  | launch (nblocks nq np nsq : Nat)
  | dlcheck
deriving DecidableEq

/-- Static inputs and environment oracles of `sieve_lattice_batch`.
`fa` = `found_array_size` (output capacity), `tpb` = `threads_per_block`,
`cu` = `num_compute_units`, `qsoa`/`psoa`/`sqsoa` are the device batch
capacities `Q_SOA_BATCH_SIZE`/`P_SOA_BATCH_SIZE`/`SPECIALQ_BATCH_SIZE`
(constants of the core header, not present under src/, kept abstract).
`stop k` is the value of the `MSIEVE_FLAG_STOP_SIEVING` flag read at the
check following the `k`-th kernel launch of the driver invocation;
`dl k` tells whether `elapsed > deadline` at the `k`-th deadline check. -/
structure BatchCfg where
  fa : Nat
  tpb : Nat
  cu : Nat
  qsoa : Nat
  psoa : Nat
  sqsoa : Nat
  stop : Nat → Bool
  dl : Nat → Bool

/-- Innermost loop of `sieve_lattice_batch` (lines 225-268): iterate over
the special-q array in `specialChunk` pieces; after each launch + reduce,
read the stop flag and return immediately (result `true` = stopped) when it
is set.  `lc`/`dc` count launches / deadline checks done so far. -/
def sqLoop (cfg : BatchCfg) (nblocks nq np sqT sqDone lc dc fuel : Nat) :
    Option (Bool × List Ev × Nat × Nat) :=
  match fuel with
  | 0 => none
  | fuel + 1 =>
    if sqDone < sqT then
      let cnsq := specialChunk cfg.sqsoa (sqT - sqDone)
      let lc1 := lc + 1
      if cfg.stop lc1 then
        some (true, [Ev.launch nblocks nq np cnsq], lc1, dc)
      else
        match sqLoop cfg nblocks nq np sqT (sqDone + cnsq) lc1 dc fuel with
        | none => none
        | some (st, evs, a, b) => some (st, Ev.launch nblocks nq np cnsq :: evs, a, b)
    else
      some (false, [], lc, dc)

/-- Middle loop of `sieve_lattice_batch` (lines 202-276): iterate over the
small-value array in `smallChunk` pieces, run all special-q chunks for each,
then perform the wall-clock deadline check and return immediately (`true` =
stopped) when the deadline is exceeded. -/
def pLoop (cfg : BatchCfg) (nblocks nq pT sqT pDone lc dc fuel : Nat) :
    Option (Bool × List Ev × Nat × Nat) :=
  match fuel with
  | 0 => none
  | fuel + 1 =>
    if pDone < pT then
      let cnp := smallChunk cfg.fa (pT - pDone) cfg.psoa
      match sqLoop cfg nblocks nq cnp sqT 0 lc dc (sqT + 1) with
      | none => none
      | some (st, evs, lc1, dc1) =>
        if st then
          some (true, evs, lc1, dc1)
        else
          let dc2 := dc1 + 1
          if cfg.dl dc2 then
            some (true, evs ++ [Ev.dlcheck], lc1, dc2)
          else
            match pLoop cfg nblocks nq pT sqT (pDone + cnp) lc1 dc2 fuel with
            | none => none
            | some (st2, evs2, a, b) => some (st2, (evs ++ [Ev.dlcheck]) ++ evs2, a, b)
    else
      some (false, [], lc, dc)

/-- Outer loop of `sieve_lattice_batch` (lines 169-279): iterate over the
large-value array in `largeChunk` pieces; a zero chunk ends the loop
normally (`break`, lines 181-182).  The grid width is `num_compute_units`,
or `curr_num_q / threads_per_block` when `curr_num_q < found_array_size`
(lines 197-200). -/
def qLoop (cfg : BatchCfg) (qT pT sqT qDone lc dc fuel : Nat) :
    Option (Bool × List Ev × Nat × Nat) :=
  match fuel with
  | 0 => none
  | fuel + 1 =>
    if qDone < qT then
      let cnq := largeChunk cfg.fa (qT - qDone) cfg.qsoa cfg.tpb
      if cnq = 0 then
        some (false, [], lc, dc)
      else
        let nblocks := if cnq < cfg.fa then cnq / cfg.tpb else cfg.cu
        match pLoop cfg nblocks cnq pT sqT 0 lc dc (pT + 1) with
        | none => none
        | some (st, evs, lc1, dc1) =>
          if st then
            some (true, evs, lc1, dc1)
          else
            match qLoop cfg qT pT sqT (qDone + cnq) lc1 dc1 fuel with
            | none => none
            | some (st2, evs2, a, b) => some (st2, evs ++ evs2, a, b)
    else
      some (false, [], lc, dc)

/-- `sieve_lattice_batch` (lines 97-282) for host arrays holding `qT` / `pT`
/ `sqT` filled entries, entered with `lc` launches and `dc` deadline checks
already performed by earlier calls in the same `sieve_specialq_64` run.
Returns the C return value (1 = stopped, 0 = completed), the event trace and
the updated counters. -/
def sieve_lattice_batch (cfg : BatchCfg) (qT pT sqT lc dc : Nat) :
    Option (Nat × List Ev × Nat × Nat) :=
  (qLoop cfg qT pT sqT 0 lc dc (qT + 1)).map
    (fun r => (if r.1 then 1 else 0, r.2))

/-! ### `sieve_specialq_64` (lines 285-416): generator refill loops -/

/-- One generator item: a value and its modular roots, as delivered by one
`sieve_fb_next` callback invocation of `store_p_soa`. -/
abbrev GenItem := Nat × List Nat

/-- Total number of `(value, root)` candidate pairs a generator stream
produces. -/
def sumPairs (s : List GenItem) : Nat :=
  (s.map (fun it => it.2.length)).sum

/-- A refill loop (e.g. lines 354-358): call the generator, storing into a
buffer of capacity `alloc` that currently holds `cnt` entries, until the
generator is exhausted or the buffer count reaches `alloc` exactly
(`store_p_soa` drops the excess of the last item, so the count never passes
`alloc`).  Returns the final count and the unconsumed stream suffix. -/
def fill (alloc cnt : Nat) : List GenItem → Nat × List GenItem
  | [] => (cnt, [])
  | it :: rest =>
    let cnt1 := cnt + min it.2.length (alloc - cnt)
    if cnt1 = alloc then (cnt1, rest) else fill alloc cnt1 rest

/-- Innermost refill loop of `sieve_specialq_64` (lines 379-397): refill the
special-q array; an empty refill breaks; otherwise run
`sieve_lattice_batch` and stop as soon as it returns nonzero `quit`. -/
def sqRefill (cfg : BatchCfg) (hsq qcnt pcnt : Nat) :
    List GenItem → Nat → Nat → Nat → Option (Nat × List Ev × Nat × Nat)
  | _, _, _, 0 => none
  | sqs, lc, dc, fuel + 1 =>
    let f := fill hsq 0 sqs
    if f.1 = 0 then
      some (0, [], lc, dc)
    else
      match sieve_lattice_batch cfg qcnt pcnt f.1 lc dc with
      | none => none
      | some (q, evs, lc1, dc1) =>
        if q = 0 then
          match sqRefill cfg hsq qcnt pcnt f.2 lc1 dc1 fuel with
          | none => none
          | some (q2, evs2, a, b) => some (q2, evs ++ evs2, a, b)
        else
          some (q, evs, lc1, dc1)

/-- Middle refill loop of `sieve_specialq_64` (lines 365-398): refill the
small-value array; an empty refill breaks; the special-q generator is reset
(restarted from `sqs0`) for every small-value batch. -/
def pRefill (cfg : BatchCfg) (hp hsq qcnt : Nat) (sqs0 : List GenItem) :
    List GenItem → Nat → Nat → Nat → Option (Nat × List Ev × Nat × Nat)
  | _, _, _, 0 => none
  | ps, lc, dc, fuel + 1 =>
    let f := fill hp 0 ps
    if f.1 = 0 then
      some (0, [], lc, dc)
    else
      match sqRefill cfg hsq qcnt f.1 sqs0 lc dc (sqs0.length + 1) with
      | none => none
      | some (q, evs, lc1, dc1) =>
        if q = 0 then
          match pRefill cfg hp hsq qcnt sqs0 f.2 lc1 dc1 fuel with
          | none => none
          | some (q2, evs2, a, b) => some (q2, evs ++ evs2, a, b)
        else
          some (q, evs, lc1, dc1)

/-- Outer refill loop of `sieve_specialq_64` (lines 352-399): refill the
large-value array; fewer than `threads_per_block` entries breaks the loop
normally (lines 360-361); the small-value generator is restarted from `ps0`
for every large-value batch. -/
def qRefill (cfg : BatchCfg) (hq hp hsq : Nat) (ps0 sqs0 : List GenItem) :
    List GenItem → Nat → Nat → Nat → Option (Nat × List Ev × Nat × Nat)
  | _, _, _, 0 => none
  | qs, lc, dc, fuel + 1 =>
    let f := fill hq 0 qs
    if f.1 < cfg.tpb then
      some (0, [], lc, dc)
    else
      match pRefill cfg hp hsq f.1 sqs0 ps0 lc dc (ps0.length + 1) with
      | none => none
      | some (q, evs, lc1, dc1) =>
        if q = 0 then
          match qRefill cfg hq hp hsq ps0 sqs0 f.2 lc1 dc1 fuel with
          | none => none
          | some (q2, evs2, a, b) => some (q2, evs ++ evs2, a, b)
        else
          some (q, evs, lc1, dc1)

/-- `sieve_specialq_64` (lines 285-416), abstracted over the device
parameters and the three generator streams.  `found_array_size` is
`threads_per_block * num_compute_units` (lines 333-334) and the host batch
sizes are those of lines 340-342.  Returns `quit` (1 = stopped, 0 =
completed) with the launch/deadline-check trace and final counters. -/
def sieve_specialq_64 (tpb cu qsoa psoa sqsoa : Nat) (stop dl : Nat → Bool)
    (qs ps sqs : List GenItem) : Option (Nat × List Ev × Nat × Nat) :=
  let fa := tpb * cu
  let cfg : BatchCfg := ⟨fa, tpb, cu, qsoa, psoa, sqsoa, stop, dl⟩
  qRefill cfg (max 50000 (12 * fa)) (max 10000 (fa / 3)) (sqsoa * 12)
    ps sqs qs 0 0 (qs.length + 1)

/-! ### RangeScanner: `sieve_lattice_gpu_sq` (lines 419-481) -/

/-- `(uint32)(-1)`. -/
def UINT32_MAX : Nat := 2 ^ 32 - 1

/-- The round loop of `sieve_lattice_gpu_sq` (lines 453-476), abstracted
over the scale factor `s` (`P_SCALE`, a constant of stage1.h which is not
present under src/) and over `rq i`, the value `sieve_specialq_64` returns
on round `i` (its generators and the device are external).  `rounds` is the
remaining iteration budget of `for (i = 0; i < 3; i++)`.  Each executed
round is recorded as `(large_p_min, large_p_max, small_p_min, small_p_max)`.
After a round, `quit != 0` or `large_p_max > UINT32_MAX / s` breaks;
otherwise the ranges slide: large `[b, b*s]`, small `[c/s, c]`, the upper
bound stored in a `uint32`. -/
def scanRounds (s : Nat) (rq : Nat → Nat) :
    Nat → Nat → Nat → Nat → Nat → Nat → Nat × List (Nat × Nat × Nat × Nat)
  | 0, _, _, _, _, _ => (0, [])
  | r + 1, i, lmin, lmax, smin, smax =>
    let q := rq i
    if q ≠ 0 ∨ lmax > UINT32_MAX / s then
      (q, [(lmin, lmax, smin, smax)])
    else if r = 0 then
      (q, [(lmin, lmax, smin, smax)])
    else
      let next := scanRounds s rq r (i + 1) lmax (lmax * s % 2 ^ 32) (smin / s) smin
      (next.1, (lmin, lmax, smin, smax) :: next.2)

/-- `sieve_lattice_gpu_sq` (lines 419-481).  `p_size_max` and
`special_q_max` determine the guard and the initial ranges; the square root
of the (double) quotient is modelled as `Nat.sqrt`, and `s` is `P_SCALE` as
in `scanRounds`.  Returns the C return value, a flag telling whether the
`sieve_fb_init` allocations were reached, and the executed rounds.  When
the overflow guard at lines 432-436 fires the function returns 0 before
any allocation (`false`, no rounds). -/
def sieve_lattice_gpu_sq (s p_size_max special_q_max : Nat) (rq : Nat → Nat) :
    Nat × Bool × List (Nat × Nat × Nat × Nat) :=
  let psm := p_size_max / special_q_max
  if Nat.sqrt psm * s > UINT32_MAX then
    (0, false, [])
  else
    let lmin := Nat.sqrt psm
    let lmax := lmin * s % 2 ^ 32
    let smax := lmin - 1
    let smin := smax / s
    let r := scanRounds s rq 3 0 lmin lmax smin smax
    (r.1, true, r.2)

/-! ## Theorems -/

/-- C4: `store_p_soa` stores exactly `min(rootCount, capacity − count)`
`(value, root)` pairs, in order, silently dropping the excess; `count ≤
capacity` is preserved; `p_soa_var_reset` zeroes the count without touching
the capacity, and an append of `M ≤ capacity` roots after a reset yields
exactly the `M` new entries with no residue from earlier appends. -/
theorem claim_C4 (soa : p_soa_var_t) (p : Nat) (roots roots2 : List Nat)
    (h : soa.buf.length ≤ soa.num_p_alloc) :
    (store_p_soa p roots soa).buf
      = soa.buf ++ (roots.take (soa.num_p_alloc - soa.buf.length)).map (fun r => (p, r))
    ∧ (store_p_soa p roots soa).buf.length
      = soa.buf.length + min roots.length (soa.num_p_alloc - soa.buf.length)
    ∧ (store_p_soa p roots soa).buf.length ≤ soa.num_p_alloc
    ∧ (p_soa_var_reset soa).buf = []
    ∧ (p_soa_var_reset soa).num_p_alloc = soa.num_p_alloc
    ∧ (roots2.length ≤ soa.num_p_alloc →
        (store_p_soa p roots2 (p_soa_var_reset soa)).buf = roots2.map (fun r => (p, r))) := by
  have hlen : (store_p_soa p roots soa).buf.length
      = soa.buf.length + min roots.length (soa.num_p_alloc - soa.buf.length) := by
    simp [store_p_soa, Nat.min_comm]
  refine ⟨rfl, hlen, ?_, rfl, rfl, ?_⟩
  · rw [hlen]; omega
  · intro h2
    simp [store_p_soa, p_soa_var_reset, List.take_of_length_le h2]

/-- C4 witness: capacity 5, existing count 4, rootCount 3: exactly one pair
is stored (the buffer reaches its capacity 5) and the other two roots are
dropped silently. -/
theorem claim_C4_witness :
    (store_p_soa 9 [7, 8, 9] ⟨5, [(2, 11), (2, 12), (2, 13), (2, 14)]⟩).buf.length
      = 4 + min 3 1
    ∧ (store_p_soa 9 [7, 8, 9] ⟨5, [(2, 11), (2, 12), (2, 13), (2, 14)]⟩).buf.length ≤ 5 := by
  have h := claim_C4 ⟨5, [(2, 11), (2, 12), (2, 13), (2, 14)]⟩ 9 [7, 8, 9] [1] (by decide)
  exact ⟨h.2.1, h.2.2.1⟩

/-- C1: on any copied-back output array whose fields respect their machine
widths (`p` 32-bit, `proot`/`offset` 64-bit), `check_found` behaves exactly
as `check_found_spec`: one handler call per record with nonzero `p`, none
for `p == 0`, and the forwarded residue is `proot + offset·p²` computed
exactly — `p²` fits 64 bits, the product `offset·p²` and the 128-bit sum
are below `2^128`, so no truncation occurs anywhere on this path. -/
theorem claim_C1 (sqp sqr : List Nat) (off : Nat) (found : List found_t)
    (h : ∀ f ∈ found, f.p < 2 ^ 32 ∧ f.proot < 2 ^ 64 ∧ f.offset < 2 ^ 64) :
    check_found sqp sqr off found = check_found_spec sqp sqr off found := by
  induction found with
  | nil => rfl
  | cons f rest ih =>
    obtain ⟨hp, hproot, hoff⟩ := h f (by simp)
    have hrest := ih (fun g hg => h g (by simp [hg]))
    by_cases hz : f.p = 0
    · simp [check_found, check_found_spec, hz, hrest]
    · have hp2 : f.p * f.p < 2 ^ 64 := by
        have : f.p * f.p < 2 ^ 32 * 2 ^ 32 := Nat.mul_lt_mul_of_lt_of_lt hp hp
        omega
      have hprod : f.offset * (f.p * f.p) ≤ (2 ^ 64 - 1) * (2 ^ 64 - 1) :=
        Nat.mul_le_mul (by omega) (by omega)
      have hsum : f.proot + f.offset * (f.p * f.p) < 2 ^ 128 := by omega
      have e1 : f.p * f.p % 2 ^ 64 = f.p * f.p := Nat.mod_eq_of_lt hp2
      have e2 : f.proot % 2 ^ 64 = f.proot := Nat.mod_eq_of_lt hproot
      have e3 : f.offset % 2 ^ 64 = f.offset := Nat.mod_eq_of_lt hoff
      have e4 : (f.proot + f.offset * (f.p * f.p)) % 2 ^ 128
          = f.proot + f.offset * (f.p * f.p) := Nat.mod_eq_of_lt hsum
      simp only [check_found, check_found_spec, hz, if_false, hrest, add128, mul64,
        e1, e2, e3, e4]

/-- C1 witness: a two-record array in which the first record has maximal
64-bit `offset` and maximal 32-bit `p` — so `offset·p²` far exceeds 64 bits
— and the second record is the `p == 0` sentinel.  The reducer makes
exactly one handler call, with the exact full-precision residue. -/
theorem claim_C1_witness :
    (∀ f ∈ [(⟨4294967295, 7, 0, 18446744073709551615, 18446744073709551615⟩ : found_t),
            ⟨0, 1, 0, 5, 5⟩],
       f.p < 2 ^ 32 ∧ f.proot < 2 ^ 64 ∧ f.offset < 2 ^ 64)
    ∧ check_found [11] [21] 0
        [⟨4294967295, 7, 0, 18446744073709551615, 18446744073709551615⟩, ⟨0, 1, 0, 5, 5⟩]
      = check_found_spec [11] [21] 0
        [⟨4294967295, 7, 0, 18446744073709551615, 18446744073709551615⟩, ⟨0, 1, 0, 5, 5⟩]
    ∧ 2 ^ 64 < 18446744073709551615 * (4294967295 * 4294967295) := by
  refine ⟨by decide, claim_C1 [11] [21] 0 _ (by decide), by norm_num⟩

/-- C2 counterexample: the kernel parameters are NOT bound as three buffer
references followed by three 32-bit counts.  At pointer size 8 (or any
pointer size) the second bound parameter is the `num_p` 32-bit count, not a
buffer reference: the actual order interleaves buffer/count pairs. -/
theorem claim_C2_counterexample :
    (kernelParamLayout 8).map Prod.fst ≠
      [PKind.bufferRef, PKind.bufferRef, PKind.bufferRef, PKind.count32,
       PKind.count32, PKind.count32, PKind.scalar64, PKind.outputRef] := by
  decide

/-- C2 (amended): the kernel parameter list is bound in the fixed order
p-buffer reference, 32-bit p-count, q-buffer reference, 32-bit q-count,
sq-buffer reference, 32-bit sq-count, 64-bit lattice-size scalar,
output-buffer reference — i.e. buffer/count pairs interleaved, not buffers
first — and each field's byte offset is aligned to its native alignment
(pointer-sized fields to pointer alignment, the 64-bit scalar to 8 bytes,
counts to 4 bytes).  The layout is a pure function of the pointer size,
computed once before the launch loop, hence identical before every launch. -/
theorem claim_C2 (ptrSize : Nat) (h : ptrSize = 4 ∨ ptrSize = 8) :
    (kernelParamLayout ptrSize).map Prod.fst = kernelParamOrder
    ∧ (∀ ko ∈ kernelParamLayout ptrSize, ko.2 % paramSizeOf ptrSize ko.1 = 0) := by
  rcases h with h | h <;> subst h <;> exact ⟨by decide, by decide⟩

/-- C2 witness: the amended layout claim at the 64-bit pointer size. -/
theorem claim_C2_witness :
    (kernelParamLayout 8).map Prod.fst = kernelParamOrder
    ∧ (∀ ko ∈ kernelParamLayout 8, ko.2 % paramSizeOf 8 ko.1 = 0) :=
  claim_C2 8 (Or.inr rfl)

/-- Helper: the overflow guard at lines 432-436 returns 0 before the
`sieve_fb_init` calls and before any round. -/
theorem gpu_sq_guard_eq (s psm sqm : Nat) (rq : Nat → Nat)
    (h : Nat.sqrt (psm / sqm) * s > UINT32_MAX) :
    sieve_lattice_gpu_sq s psm sqm rq = (0, false, []) := by
  simp only [sieve_lattice_gpu_sq]
  rw [if_pos h]

/-- C6: whenever `sqrt(p_size_max / special_q_max) * P_SCALE` exceeds the
32-bit maximum, the range scanner returns before the `sieve_fb_init`
allocations (`false` component) and runs zero rounds (empty round list):
no host or device allocation, no partial state. -/
theorem claim_C6 (s psm sqm : Nat) (rq : Nat → Nat)
    (h : Nat.sqrt (psm / sqm) * s > UINT32_MAX) :
    sieve_lattice_gpu_sq s psm sqm rq = (0, false, []) :=
  gpu_sq_guard_eq s psm sqm rq h

/-- C6 witness: `p_size_max/special_q_max = 4`, scale `2^32`:
`sqrt(4) * 2^32 = 2^33 > 2^32 - 1`, and the scanner returns `(0, false, [])`. -/
theorem claim_C6_witness :
    Nat.sqrt (4 / 1) * 2 ^ 32 > UINT32_MAX
    ∧ sieve_lattice_gpu_sq (2 ^ 32) 4 1 (fun _ => 0) = (0, false, []) := by
  have hs : Nat.sqrt (4 / 1) = 2 := by
    rw [show (4 : Nat) / 1 = 2 * 2 from rfl, Nat.sqrt_eq]
  have hg : Nat.sqrt (4 / 1) * 2 ^ 32 > UINT32_MAX := by
    rw [hs]; norm_num [UINT32_MAX]
  exact ⟨hg, claim_C6 (2 ^ 32) 4 1 (fun _ => 0) hg⟩

/-- Helper: every executed `scanRounds` round list starts with the entry
ranges. -/
theorem scanRounds_cons (s : Nat) (rq : Nat → Nat) (r i a b c d : Nat) :
    ∃ t, (scanRounds s rq (r + 1) i a b c d).2 = (a, b, c, d) :: t := by
  simp only [scanRounds]
  split
  · exact ⟨[], rfl⟩
  · split
    · exact ⟨[], rfl⟩
    · exact ⟨_, rfl⟩

/-- Helper: `scanRounds` executes at most `r` rounds. -/
theorem scanRounds_length (s : Nat) (rq : Nat → Nat) :
    ∀ r i a b c d, ((scanRounds s rq r i a b c d).2).length ≤ r := by
  intro r
  induction r with
  | zero => intro i a b c d; simp [scanRounds]
  | succ n ih =>
    intro i a b c d
    simp only [scanRounds]
    split
    · simp
    · split
      · simp
      · simpa using Nat.succ_le_succ (ih (i + 1) _ _ _ _)

/-- Helper: if every round reports normal completion, `scanRounds`
returns 0. -/
theorem scanRounds_all_zero (s : Nat) (rq : Nat → Nat) (h : ∀ i, rq i = 0) :
    ∀ r i a b c d, (scanRounds s rq r i a b c d).1 = 0 := by
  intro r
  induction r with
  | zero => intro i a b c d; simp [scanRounds]
  | succ n ih =>
    intro i a b c d
    simp only [scanRounds]
    split
    · exact h i
    · split
      · exact h i
      · exact ih (i + 1) _ _ _ _

/-- C7: the scan loop runs at most 3 rounds; after a first round that
returned 0 and whose large upper bound `b` has not passed the slide guard
`UINT32_MAX / s`, the second executed round has large range `[b, b·s]` and
small range `[c/s, c]`; a round returning nonzero (stopped) ends the scan
immediately propagating that value, and a slide-guard overflow after a
0-returning round also ends the scan (returning 0). -/
theorem claim_C7 (s : Nat) (rq : Nat → Nat) (a b c d : Nat) :
    ((scanRounds s rq 3 0 a b c d).2).length ≤ 3
    ∧ (rq 0 = 0 → b ≤ UINT32_MAX / s →
        ((scanRounds s rq 3 0 a b c d).2).take 2
          = [(a, b, c, d), (b, b * s, c / s, c)])
    ∧ (rq 0 ≠ 0 → scanRounds s rq 3 0 a b c d = (rq 0, [(a, b, c, d)]))
    ∧ (rq 0 = 0 → b > UINT32_MAX / s →
        scanRounds s rq 3 0 a b c d = (0, [(a, b, c, d)])) := by
  refine ⟨scanRounds_length s rq 3 0 a b c d, ?_, ?_, ?_⟩
  · intro h0 hb
    have h3 : UINT32_MAX < 2 ^ 32 := by norm_num [UINT32_MAX]
    have h1 : b * s ≤ UINT32_MAX / s * s := Nat.mul_le_mul_right s hb
    have h2 : UINT32_MAX / s * s ≤ UINT32_MAX := Nat.div_mul_le_self _ _
    have hlt : b * s < 4294967296 := by omega
    have hcond : ¬(rq 0 ≠ 0 ∨ b > UINT32_MAX / s) := by
      push_neg
      exact ⟨h0, hb⟩
    obtain ⟨t, ht⟩ := scanRounds_cons s rq 1 1 b (b * s) (c / s) c
    norm_num at ht
    conv_lhs => rw [show (3 : Nat) = 2 + 1 from rfl, scanRounds]
    rw [if_neg hcond]
    rw [if_neg (by omega : ¬(2 : Nat) = 0)]
    simp [Nat.mod_eq_of_lt hlt, ht]
  · intro h0
    conv_lhs => rw [show (3 : Nat) = 2 + 1 from rfl, scanRounds]
    rw [if_pos (Or.inl h0)]
  · intro h0 hb
    conv_lhs => rw [show (3 : Nat) = 2 + 1 from rfl, scanRounds]
    rw [if_pos (Or.inr hb), h0]

/-- C7 witness: scale 10, starting large range `[100, 200]`, small range
`[50, 60]`, all rounds completing: the first two executed rounds are
`(100, 200, 50, 60)` and `(200, 2000, 5, 50)`, and at most 3 rounds run. -/
theorem claim_C7_witness :
    ((scanRounds 10 (fun _ => 0) 3 0 100 200 50 60).2).length ≤ 3
    ∧ ((scanRounds 10 (fun _ => 0) 3 0 100 200 50 60).2).take 2
        = [(100, 200, 50, 60), (200, 2000, 5, 50)] :=
  ⟨(claim_C7 10 (fun _ => 0) 100 200 50 60).1,
   (claim_C7 10 (fun _ => 0) 100 200 50 60).2.1 rfl (by decide)⟩

/-- C10: the configuration-error path (overflow guard) of
`sieve_lattice_gpu_sq` returns 0, and a scan that runs to normal completion
(every round's inner driver returning 0) also returns 0 — the two outcomes
are indistinguishable by the return value alone. -/
theorem claim_C10 (s1 psm1 sqm1 : Nat) (rq1 : Nat → Nat)
    (s2 psm2 sqm2 : Nat) (rq2 : Nat → Nat)
    (h1 : Nat.sqrt (psm1 / sqm1) * s1 > UINT32_MAX)
    (h2 : ∀ i, rq2 i = 0) :
    (sieve_lattice_gpu_sq s1 psm1 sqm1 rq1).1 = 0
    ∧ (sieve_lattice_gpu_sq s2 psm2 sqm2 rq2).1 = 0 := by
  constructor
  · rw [gpu_sq_guard_eq s1 psm1 sqm1 rq1 h1]
  · simp only [sieve_lattice_gpu_sq]
    split
    · rfl
    · simpa using scanRounds_all_zero s2 rq2 h2 3 0 _ _ _ _

/-- C10 witness: a guard-failing input and a normally completing scan both
return 0. -/
theorem claim_C10_witness :
    (sieve_lattice_gpu_sq (2 ^ 32) 4 1 (fun _ => 1)).1 = 0
    ∧ (sieve_lattice_gpu_sq 2 (10 ^ 10) 1 (fun _ => 0)).1 = 0 := by
  have hs : Nat.sqrt (4 / 1) = 2 := by
    rw [show (4 : Nat) / 1 = 2 * 2 from rfl, Nat.sqrt_eq]
  exact claim_C10 (2 ^ 32) 4 1 (fun _ => 1) 2 (10 ^ 10) 1 (fun _ => 0)
    (by rw [hs]; norm_num [UINT32_MAX]) (fun _ => rfl)

/-! ### Loop invariants of `sieve_lattice_batch` -/

/-- Helper: the special-q loop only increases the launch counter and never
performs a deadline check. -/
theorem sqLoop_counters (cfg : BatchCfg) :
    ∀ fuel nblocks nq np sqT sqDone lc dc st evs lc' dc',
      sqLoop cfg nblocks nq np sqT sqDone lc dc fuel = some (st, evs, lc', dc') →
      lc ≤ lc' ∧ dc' = dc := by
  intro fuel
  induction fuel with
  | zero =>
    intro nblocks nq np sqT sqDone lc dc st evs lc' dc' h
    simp [sqLoop] at h
  | succ n ih =>
    intro nblocks nq np sqT sqDone lc dc st evs lc' dc' h
    simp only [sqLoop] at h
    split at h
    · split at h
      · simp only [Option.some.injEq, Prod.mk.injEq] at h
        omega
      · cases hrec : sqLoop cfg nblocks nq np sqT
            (sqDone + specialChunk cfg.sqsoa (sqT - sqDone)) (lc + 1) dc n with
        | none => rw [hrec] at h; simp at h
        | some v =>
          obtain ⟨st1, evs1, a, b⟩ := v
          rw [hrec] at h
          simp only [Option.some.injEq, Prod.mk.injEq] at h
          have := ih nblocks nq np sqT _ _ _ _ _ _ _ hrec
          omega
    · simp only [Option.some.injEq, Prod.mk.injEq] at h
      omega

/-- Helper: if the stop flag is set at the check after launch `k` and the
special-q loop reaches that check, it returns the stopped flag with exactly
`k` launches performed. -/
theorem sqLoop_stopk (cfg : BatchCfg) (k : Nat) (hk : cfg.stop k = true) :
    ∀ fuel nblocks nq np sqT sqDone lc dc st evs lc' dc',
      sqLoop cfg nblocks nq np sqT sqDone lc dc fuel = some (st, evs, lc', dc') →
      lc < k → k ≤ lc' → lc' = k ∧ st = true := by
  intro fuel
  induction fuel with
  | zero =>
    intro nblocks nq np sqT sqDone lc dc st evs lc' dc' h
    simp [sqLoop] at h
  | succ n ih =>
    intro nblocks nq np sqT sqDone lc dc st evs lc' dc' h hlo hhi
    simp only [sqLoop] at h
    split at h
    · split at h
      next hstop =>
        simp only [Option.some.injEq, Prod.mk.injEq] at h
        exact ⟨by omega, h.1.symm⟩
      next hstop =>
        cases hrec : sqLoop cfg nblocks nq np sqT
            (sqDone + specialChunk cfg.sqsoa (sqT - sqDone)) (lc + 1) dc n with
        | none => rw [hrec] at h; simp at h
        | some v =>
          obtain ⟨st1, evs1, a, b⟩ := v
          rw [hrec] at h
          simp only [Option.some.injEq, Prod.mk.injEq] at h
          have hne : ¬k = lc + 1 := fun he => hstop (he ▸ hk)
          have := ih nblocks nq np sqT _ _ _ _ _ _ _ hrec (by omega) (by omega)
          exact ⟨by omega, h.1 ▸ this.2⟩
    · simp only [Option.some.injEq, Prod.mk.injEq] at h
      exact absurd hhi (by omega)

/-- Helper: if the stop flag is never set, the special-q loop never reports
the stopped outcome. -/
theorem sqLoop_nostop (cfg : BatchCfg) (hns : ∀ j, cfg.stop j = false) :
    ∀ fuel nblocks nq np sqT sqDone lc dc st evs lc' dc',
      sqLoop cfg nblocks nq np sqT sqDone lc dc fuel = some (st, evs, lc', dc') →
      st = false := by
  intro fuel
  induction fuel with
  | zero =>
    intro nblocks nq np sqT sqDone lc dc st evs lc' dc' h
    simp [sqLoop] at h
  | succ n ih =>
    intro nblocks nq np sqT sqDone lc dc st evs lc' dc' h
    simp only [sqLoop] at h
    split at h
    · split at h
      next hstop => exact absurd hstop (by simp [hns])
      next hstop =>
        cases hrec : sqLoop cfg nblocks nq np sqT
            (sqDone + specialChunk cfg.sqsoa (sqT - sqDone)) (lc + 1) dc n with
        | none => rw [hrec] at h; simp at h
        | some v =>
          obtain ⟨st1, evs1, a, b⟩ := v
          rw [hrec] at h
          simp only [Option.some.injEq, Prod.mk.injEq] at h
          exact h.1 ▸ ih nblocks nq np sqT _ _ _ _ _ _ _ hrec
    · simp only [Option.some.injEq, Prod.mk.injEq] at h
      exact h.1.symm

/-- Helper: if the stop flag is set at the check after launch `k` and the
small-value loop reaches that check, it returns the stopped flag with
exactly `k` launches performed. -/
theorem pLoop_stopk (cfg : BatchCfg) (k : Nat) (hk : cfg.stop k = true) :
    ∀ fuel nblocks nq pT sqT pDone lc dc st evs lc' dc',
      pLoop cfg nblocks nq pT sqT pDone lc dc fuel = some (st, evs, lc', dc') →
      lc < k → k ≤ lc' → lc' = k ∧ st = true := by
  intro fuel
  induction fuel with
  | zero =>
    intro nblocks nq pT sqT pDone lc dc st evs lc' dc' h
    simp [pLoop] at h
  | succ n ih =>
    intro nblocks nq pT sqT pDone lc dc st evs lc' dc' h hlo hhi
    simp only [pLoop] at h
    split at h
    · split at h
      · simp at h
      next st1 evs1 a b hsq =>
        split at h
        next hst1 =>
          simp only [Option.some.injEq, Prod.mk.injEq] at h
          obtain ⟨he1, he2, he3, he4⟩ := h
          subst he3
          exact ⟨(sqLoop_stopk cfg k hk _ _ _ _ _ _ _ _ _ _ _ _ hsq hlo hhi).1, he1.symm⟩
        next hst1 =>
          split at h
          next hdl =>
            simp only [Option.some.injEq, Prod.mk.injEq] at h
            obtain ⟨he1, he2, he3, he4⟩ := h
            subst he3
            have := (sqLoop_stopk cfg k hk _ _ _ _ _ _ _ _ _ _ _ _ hsq hlo hhi).2
            exact absurd this hst1
          next hdl =>
            split at h
            · simp at h
            next st2 evs2 a2 b2 hrec =>
              simp only [Option.some.injEq, Prod.mk.injEq] at h
              obtain ⟨he1, he2, he3, he4⟩ := h
              subst he3
              have ha : a < k := by
                by_contra hka
                exact hst1 ((sqLoop_stopk cfg k hk _ _ _ _ _ _ _ _ _ _ _ _ hsq hlo
                  (by omega)).2)
              have := ih nblocks nq pT sqT _ _ _ _ _ _ _ hrec ha hhi
              exact ⟨this.1, he1 ▸ this.2⟩
    · simp only [Option.some.injEq, Prod.mk.injEq] at h
      exact absurd hhi (by omega)

/-- Helper: if the deadline is exceeded at deadline check `k` and the
small-value loop reaches that check, it returns the stopped flag with
exactly `k` deadline checks performed. -/
theorem pLoop_dlk (cfg : BatchCfg) (k : Nat) (hk : cfg.dl k = true) :
    ∀ fuel nblocks nq pT sqT pDone lc dc st evs lc' dc',
      pLoop cfg nblocks nq pT sqT pDone lc dc fuel = some (st, evs, lc', dc') →
      dc < k → k ≤ dc' → dc' = k ∧ st = true := by
  intro fuel
  induction fuel with
  | zero =>
    intro nblocks nq pT sqT pDone lc dc st evs lc' dc' h
    simp [pLoop] at h
  | succ n ih =>
    intro nblocks nq pT sqT pDone lc dc st evs lc' dc' h hlo hhi
    simp only [pLoop] at h
    split at h
    · split at h
      · simp at h
      next st1 evs1 a b hsq =>
        have hb : b = dc := (sqLoop_counters cfg _ _ _ _ _ _ _ _ _ _ _ _ hsq).2
        split at h
        next hst1 =>
          simp only [Option.some.injEq, Prod.mk.injEq] at h
          obtain ⟨he1, he2, he3, he4⟩ := h
          subst he4
          exact absurd hhi (by omega)
        next hst1 =>
          split at h
          next hdl =>
            simp only [Option.some.injEq, Prod.mk.injEq] at h
            obtain ⟨he1, he2, he3, he4⟩ := h
            subst he4
            exact ⟨by omega, he1.symm⟩
          next hdl =>
            split at h
            · simp at h
            next st2 evs2 a2 b2 hrec =>
              simp only [Option.some.injEq, Prod.mk.injEq] at h
              obtain ⟨he1, he2, he3, he4⟩ := h
              subst he4
              have hne : ¬k = b + 1 := fun he => hdl (he ▸ hk)
              have := ih nblocks nq pT sqT _ _ _ _ _ _ _ hrec (by omega) hhi
              exact ⟨this.1, he1 ▸ this.2⟩
    · simp only [Option.some.injEq, Prod.mk.injEq] at h
      exact absurd hhi (by omega)

/-- Helper: with the stop flag never set and the deadline never exceeded,
the small-value loop never reports the stopped outcome. -/
theorem pLoop_allfalse (cfg : BatchCfg) (hns : ∀ j, cfg.stop j = false)
    (hnd : ∀ j, cfg.dl j = false) :
    ∀ fuel nblocks nq pT sqT pDone lc dc st evs lc' dc',
      pLoop cfg nblocks nq pT sqT pDone lc dc fuel = some (st, evs, lc', dc') →
      st = false := by
  intro fuel
  induction fuel with
  | zero =>
    intro nblocks nq pT sqT pDone lc dc st evs lc' dc' h
    simp [pLoop] at h
  | succ n ih =>
    intro nblocks nq pT sqT pDone lc dc st evs lc' dc' h
    simp only [pLoop] at h
    split at h
    · split at h
      · simp at h
      next st1 evs1 a b hsq =>
        split at h
        next hst1 =>
          exact absurd (sqLoop_nostop cfg hns _ _ _ _ _ _ _ _ _ _ _ _ hsq)
            (by simp [hst1])
        next hst1 =>
          split at h
          next hdl => exact absurd hdl (by simp [hnd])
          next hdl =>
            split at h
            · simp at h
            next st2 evs2 a2 b2 hrec =>
              simp only [Option.some.injEq, Prod.mk.injEq] at h
              exact h.1 ▸ ih nblocks nq pT sqT _ _ _ _ _ _ _ hrec
    · simp only [Option.some.injEq, Prod.mk.injEq] at h
      exact h.1.symm

/-- Helper: if the stop flag is set at the check after launch `k` and the
large-value loop reaches that check, it returns the stopped flag with
exactly `k` launches performed. -/
theorem qLoop_stopk (cfg : BatchCfg) (k : Nat) (hk : cfg.stop k = true) :
    ∀ fuel qT pT sqT qDone lc dc st evs lc' dc',
      qLoop cfg qT pT sqT qDone lc dc fuel = some (st, evs, lc', dc') →
      lc < k → k ≤ lc' → lc' = k ∧ st = true := by
  intro fuel
  induction fuel with
  | zero =>
    intro qT pT sqT qDone lc dc st evs lc' dc' h
    simp [qLoop] at h
  | succ n ih =>
    intro qT pT sqT qDone lc dc st evs lc' dc' h hlo hhi
    simp only [qLoop] at h
    split at h
    · split at h
      · simp only [Option.some.injEq, Prod.mk.injEq] at h
        exact absurd hhi (by omega)
      · split at h
        · simp at h
        next st1 evs1 a b hp =>
          split at h
          next hst1 =>
            simp only [Option.some.injEq, Prod.mk.injEq] at h
            obtain ⟨he1, he2, he3, he4⟩ := h
            subst he3
            exact ⟨(pLoop_stopk cfg k hk _ _ _ _ _ _ _ _ _ _ _ _ hp hlo hhi).1, he1.symm⟩
          next hst1 =>
            split at h
            · simp at h
            next st2 evs2 a2 b2 hrec =>
              simp only [Option.some.injEq, Prod.mk.injEq] at h
              obtain ⟨he1, he2, he3, he4⟩ := h
              subst he3
              have ha : a < k := by
                by_contra hka
                exact hst1 ((pLoop_stopk cfg k hk _ _ _ _ _ _ _ _ _ _ _ _ hp hlo
                  (by omega)).2)
              have := ih qT pT sqT _ _ _ _ _ _ _ hrec ha hhi
              exact ⟨this.1, he1 ▸ this.2⟩
    · simp only [Option.some.injEq, Prod.mk.injEq] at h
      exact absurd hhi (by omega)

/-- Helper: if the deadline is exceeded at deadline check `k` and the
large-value loop reaches that check, it returns the stopped flag with
exactly `k` deadline checks performed. -/
theorem qLoop_dlk (cfg : BatchCfg) (k : Nat) (hk : cfg.dl k = true) :
    ∀ fuel qT pT sqT qDone lc dc st evs lc' dc',
      qLoop cfg qT pT sqT qDone lc dc fuel = some (st, evs, lc', dc') →
      dc < k → k ≤ dc' → dc' = k ∧ st = true := by
  intro fuel
  induction fuel with
  | zero =>
    intro qT pT sqT qDone lc dc st evs lc' dc' h
    simp [qLoop] at h
  | succ n ih =>
    intro qT pT sqT qDone lc dc st evs lc' dc' h hlo hhi
    simp only [qLoop] at h
    split at h
    · split at h
      · simp only [Option.some.injEq, Prod.mk.injEq] at h
        exact absurd hhi (by omega)
      · split at h
        · simp at h
        next st1 evs1 a b hp =>
          split at h
          next hst1 =>
            simp only [Option.some.injEq, Prod.mk.injEq] at h
            obtain ⟨he1, he2, he3, he4⟩ := h
            subst he4
            exact ⟨(pLoop_dlk cfg k hk _ _ _ _ _ _ _ _ _ _ _ _ hp hlo hhi).1, he1.symm⟩
          next hst1 =>
            split at h
            · simp at h
            next st2 evs2 a2 b2 hrec =>
              simp only [Option.some.injEq, Prod.mk.injEq] at h
              obtain ⟨he1, he2, he3, he4⟩ := h
              subst he4
              have hb : b < k := by
                by_contra hkb
                exact hst1 ((pLoop_dlk cfg k hk _ _ _ _ _ _ _ _ _ _ _ _ hp hlo
                  (by omega)).2)
              have := ih qT pT sqT _ _ _ _ _ _ _ hrec hb hhi
              exact ⟨this.1, he1 ▸ this.2⟩
    · simp only [Option.some.injEq, Prod.mk.injEq] at h
      exact absurd hhi (by omega)

/-- Helper: with the stop flag never set and the deadline never exceeded,
the large-value loop never reports the stopped outcome. -/
theorem qLoop_allfalse (cfg : BatchCfg) (hns : ∀ j, cfg.stop j = false)
    (hnd : ∀ j, cfg.dl j = false) :
    ∀ fuel qT pT sqT qDone lc dc st evs lc' dc',
      qLoop cfg qT pT sqT qDone lc dc fuel = some (st, evs, lc', dc') →
      st = false := by
  intro fuel
  induction fuel with
  | zero =>
    intro qT pT sqT qDone lc dc st evs lc' dc' h
    simp [qLoop] at h
  | succ n ih =>
    intro qT pT sqT qDone lc dc st evs lc' dc' h
    simp only [qLoop] at h
    split at h
    · split at h
      · simp only [Option.some.injEq, Prod.mk.injEq] at h
        exact h.1.symm
      · split at h
        · simp at h
        next st1 evs1 a b hp =>
          split at h
          next hst1 =>
            exact absurd (pLoop_allfalse cfg hns hnd _ _ _ _ _ _ _ _ _ _ _ _ hp)
              (by simp [hst1])
          next hst1 =>
            split at h
            · simp at h
            next st2 evs2 a2 b2 hrec =>
              simp only [Option.some.injEq, Prod.mk.injEq] at h
              exact h.1 ▸ ih qT pT sqT _ _ _ _ _ _ _ hrec
    · simp only [Option.some.injEq, Prod.mk.injEq] at h
      exact h.1.symm

/-- Helper: all events of the special-q loop are launches with the grid
width and q/p chunk sizes it was entered with. -/
theorem sqLoop_evs (cfg : BatchCfg) :
    ∀ fuel nblocks nq np sqT sqDone lc dc st evs lc' dc',
      sqLoop cfg nblocks nq np sqT sqDone lc dc fuel = some (st, evs, lc', dc') →
      ∀ e ∈ evs, ∃ nsq, e = Ev.launch nblocks nq np nsq := by
  intro fuel
  induction fuel with
  | zero =>
    intro nblocks nq np sqT sqDone lc dc st evs lc' dc' h
    simp [sqLoop] at h
  | succ n ih =>
    intro nblocks nq np sqT sqDone lc dc st evs lc' dc' h
    simp only [sqLoop] at h
    split at h
    · split at h
      · simp only [Option.some.injEq, Prod.mk.injEq] at h
        obtain ⟨he1, he2, he3, he4⟩ := h
        subst he2
        intro e he
        simp at he
        exact ⟨_, he⟩
      · cases hrec : sqLoop cfg nblocks nq np sqT
            (sqDone + specialChunk cfg.sqsoa (sqT - sqDone)) (lc + 1) dc n with
        | none => rw [hrec] at h; simp at h
        | some v =>
          obtain ⟨st1, evs1, a, b⟩ := v
          rw [hrec] at h
          simp only [Option.some.injEq, Prod.mk.injEq] at h
          obtain ⟨he1, he2, he3, he4⟩ := h
          subst he2
          intro e he
          rcases List.mem_cons.mp he with he | he
          · exact ⟨_, he⟩
          · exact ih nblocks nq np sqT _ _ _ _ _ _ _ hrec e he
    · simp only [Option.some.injEq, Prod.mk.injEq] at h
      obtain ⟨he1, he2, he3, he4⟩ := h
      subst he2
      intro e he
      simp at he

/-- Helper: every event of the small-value loop is a deadline check or a
launch with the grid width and q chunk size it was entered with. -/
theorem pLoop_evs (cfg : BatchCfg) :
    ∀ fuel nblocks nq pT sqT pDone lc dc st evs lc' dc',
      pLoop cfg nblocks nq pT sqT pDone lc dc fuel = some (st, evs, lc', dc') →
      ∀ e ∈ evs, e = Ev.dlcheck ∨ ∃ np nsq, e = Ev.launch nblocks nq np nsq := by
  intro fuel
  induction fuel with
  | zero =>
    intro nblocks nq pT sqT pDone lc dc st evs lc' dc' h
    simp [pLoop] at h
  | succ n ih =>
    intro nblocks nq pT sqT pDone lc dc st evs lc' dc' h
    simp only [pLoop] at h
    split at h
    · split at h
      · simp at h
      next st1 evs1 a b hsq =>
        have hsqe := sqLoop_evs cfg _ _ _ _ _ _ _ _ _ _ _ _ hsq
        split at h
        next hst1 =>
          simp only [Option.some.injEq, Prod.mk.injEq] at h
          obtain ⟨he1, he2, he3, he4⟩ := h
          subst he2
          intro e he
          obtain ⟨nsq, hnsq⟩ := hsqe e he
          exact Or.inr ⟨_, _, hnsq⟩
        next hst1 =>
          split at h
          next hdl =>
            simp only [Option.some.injEq, Prod.mk.injEq] at h
            obtain ⟨he1, he2, he3, he4⟩ := h
            subst he2
            intro e he
            rcases List.mem_append.mp he with he | he
            · obtain ⟨nsq, hnsq⟩ := hsqe e he
              exact Or.inr ⟨_, _, hnsq⟩
            · simp at he
              exact Or.inl he
          next hdl =>
            split at h
            · simp at h
            next st2 evs2 a2 b2 hrec =>
              simp only [Option.some.injEq, Prod.mk.injEq] at h
              obtain ⟨he1, he2, he3, he4⟩ := h
              subst he2
              intro e he
              rcases List.mem_append.mp he with he | he
              · rcases List.mem_append.mp he with he | he
                · obtain ⟨nsq, hnsq⟩ := hsqe e he
                  exact Or.inr ⟨_, _, hnsq⟩
                · simp at he
                  exact Or.inl he
              · exact ih nblocks nq pT sqT _ _ _ _ _ _ _ hrec e he
    · simp only [Option.some.injEq, Prod.mk.injEq] at h
      obtain ⟨he1, he2, he3, he4⟩ := h
      subst he2
      intro e he
      simp at he

/-- Helper: every launch event of the large-value loop has grid width
`num_compute_units`, or `chunk / threads_per_block` when its q chunk is
smaller than the output capacity. -/
theorem qLoop_evs (cfg : BatchCfg) :
    ∀ fuel qT pT sqT qDone lc dc st evs lc' dc',
      qLoop cfg qT pT sqT qDone lc dc fuel = some (st, evs, lc', dc') →
      ∀ e ∈ evs, ∀ nb nq np nsq, e = Ev.launch nb nq np nsq →
        nb = if nq < cfg.fa then nq / cfg.tpb else cfg.cu := by
  intro fuel
  induction fuel with
  | zero =>
    intro qT pT sqT qDone lc dc st evs lc' dc' h
    simp [qLoop] at h
  | succ n ih =>
    intro qT pT sqT qDone lc dc st evs lc' dc' h
    simp only [qLoop] at h
    split at h
    · split at h
      · simp only [Option.some.injEq, Prod.mk.injEq] at h
        obtain ⟨he1, he2, he3, he4⟩ := h
        subst he2
        intro e he
        simp at he
      · split at h
        · simp at h
        next st1 evs1 a b hp =>
          have hpe := pLoop_evs cfg _ _ _ _ _ _ _ _ _ _ _ _ hp
          have hlaunch : ∀ e ∈ evs1, ∀ nb nq np nsq, e = Ev.launch nb nq np nsq →
              nb = if nq < cfg.fa then nq / cfg.tpb else cfg.cu := by
            intro e he nb nq np nsq hev
            rcases hpe e he with hdl | ⟨np1, nsq1, hl⟩
            · rw [hdl] at hev
              exact absurd hev (by simp)
            · rw [hl] at hev
              injection hev with j1 j2 j3 j4
              subst j1
              subst j2
              rfl
          split at h
          next hst1 =>
            simp only [Option.some.injEq, Prod.mk.injEq] at h
            obtain ⟨he1, he2, he3, he4⟩ := h
            subst he2
            exact hlaunch
          next hst1 =>
            split at h
            · simp at h
            next st2 evs2 a2 b2 hrec =>
              simp only [Option.some.injEq, Prod.mk.injEq] at h
              obtain ⟨he1, he2, he3, he4⟩ := h
              subst he2
              intro e he
              rcases List.mem_append.mp he with he | he
              · exact hlaunch e he
              · exact ih qT pT sqT _ _ _ _ _ _ _ hrec e he
    · simp only [Option.some.injEq, Prod.mk.injEq] at h
      obtain ⟨he1, he2, he3, he4⟩ := h
      subst he2
      intro e he
      simp at he

/-- Helper: invert the `Option.map` wrapper of `sieve_lattice_batch`. -/
theorem batch_inv (cfg : BatchCfg) (qT pT sqT lc dc r : Nat) (evs : List Ev)
    (lc' dc' : Nat)
    (h : sieve_lattice_batch cfg qT pT sqT lc dc = some (r, evs, lc', dc')) :
    ∃ st, qLoop cfg qT pT sqT 0 lc dc (qT + 1) = some (st, evs, lc', dc')
      ∧ r = if st then 1 else 0 := by
  unfold sieve_lattice_batch at h
  cases hq : qLoop cfg qT pT sqT 0 lc dc (qT + 1) with
  | none => rw [hq] at h; simp at h
  | some v =>
    obtain ⟨st, evs1, a, b⟩ := v
    rw [hq] at h
    simp only [Option.map_some', Option.some.injEq, Prod.mk.injEq] at h
    obtain ⟨he1, he2, he3, he4⟩ := h
    subst he2
    subst he3
    subst he4
    exact ⟨st, rfl, he1.symm⟩

/-- C3: the large-value chunk is `min(3·outputCapacity, remaining,
deviceCapacity)` rounded down to a multiple of `threadsPerBlock` (i.e.
`tpb * (c / tpb)`), and a zero large-value chunk ends the loop normally:
`sieve_lattice_batch` returns the completed outcome 0 with no launches.
The small-value and special-value chunks are the stated minima and are not
rounded. -/
theorem claim_C3 (fa rem qsoa tpb : Nat) (cfg : BatchCfg) (qT pT sqT lc dc : Nat) :
    largeChunk fa rem qsoa tpb = tpb * (min (min (3 * fa) rem) qsoa / tpb)
    ∧ smallChunk fa rem qsoa = min (min (fa / 3) rem) qsoa
    ∧ specialChunk qsoa rem = min qsoa rem
    ∧ (largeChunk cfg.fa qT cfg.qsoa cfg.tpb = 0 →
        sieve_lattice_batch cfg qT pT sqT lc dc = some (0, [], lc, dc)) := by
  refine ⟨?_, rfl, rfl, ?_⟩
  · have := Nat.div_add_mod (min (min (3 * fa) rem) qsoa) tpb
    simp only [largeChunk]
    omega
  · intro hz
    rcases qT with _ | m
    · simp [sieve_lattice_batch, qLoop]
    · simp [sieve_lattice_batch, qLoop, hz]

/-- C3 witness: output capacity 4, 1 remaining large-value candidate,
threads per block 2: the large chunk rounds down to 0 and the driver
returns the completed outcome with an empty launch trace. -/
theorem claim_C3_witness :
    sieve_lattice_batch ⟨4, 2, 3, 100, 100, 2, fun _ => false, fun _ => false⟩
        1 5 5 0 0 = some (0, [], 0, 0) :=
  (claim_C3 4 1 100 2 ⟨4, 2, 3, 100, 100, 2, fun _ => false, fun _ => false⟩
    1 5 5 0 0).2.2.2 (by decide)

/-- C5: for any terminating run of `sieve_lattice_batch` (entered with
fresh counters), (a) if the stop flag is never set and the deadline never
exceeded the run returns the completed outcome 0; (b) if the stop flag is
set at the check following launch `k` and the run reaches that check, the
run performs exactly `k` launches — every remaining chunk at every nesting
level is discarded — and returns the stopped outcome 1; (c) likewise for
the deadline check `k` after a small-value chunk finishes its special-value
chunks.  The stopped outcome 1 is always distinct from the completed
outcome 0. -/
theorem claim_C5 (cfg : BatchCfg) (qT pT sqT k r : Nat) (evs : List Ev)
    (lc dc : Nat)
    (hrun : sieve_lattice_batch cfg qT pT sqT 0 0 = some (r, evs, lc, dc)) :
    ((∀ j, cfg.stop j = false) → (∀ j, cfg.dl j = false) → r = 0)
    ∧ (cfg.stop k = true → 0 < k → k ≤ lc → lc = k ∧ r = 1)
    ∧ (cfg.dl k = true → 0 < k → k ≤ dc → dc = k ∧ r = 1) := by
  obtain ⟨st, hq, hr⟩ := batch_inv cfg qT pT sqT 0 0 r evs lc dc hrun
  refine ⟨?_, ?_, ?_⟩
  · intro hns hnd
    rw [hr, qLoop_allfalse cfg hns hnd _ _ _ _ _ _ _ _ _ _ _ hq]
    rfl
  · intro hk hk0 hklc
    have := qLoop_stopk cfg k hk _ _ _ _ _ _ _ _ _ _ _ hq hk0 hklc
    exact ⟨this.1, by rw [hr, this.2]; rfl⟩
  · intro hk hk0 hkdc
    have := qLoop_dlk cfg k hk _ _ _ _ _ _ _ _ _ _ _ hq hk0 hkdc
    exact ⟨this.1, by rw [hr, this.2]; rfl⟩

/-- C5 witness: with the stop flag raised at the first check, a run that
launches once returns the stopped outcome 1 with exactly that one launch;
with no stop and no deadline the same inputs complete with outcome 0. -/
theorem claim_C5_witness :
    sieve_lattice_batch ⟨4, 2, 3, 100, 100, 2, fun _ => true, fun _ => false⟩
        2 1 1 0 0 = some (1, [Ev.launch 1 2 1 1], 1, 0)
    ∧ (1 = 1 ∧ 1 = 1)
    ∧ (0 : Nat) = 0 := by
  refine ⟨by decide, ?_, ?_⟩
  · exact (claim_C5 ⟨4, 2, 3, 100, 100, 2, fun _ => true, fun _ => false⟩
      2 1 1 1 1 [Ev.launch 1 2 1 1] 1 0 (by decide)).2.1 rfl (by decide) (by decide)
  · exact (claim_C5 ⟨4, 2, 3, 100, 100, 2, fun _ => false, fun _ => false⟩
      2 1 1 1 0 [Ev.launch 1 2 1 1, Ev.dlcheck] 1 1 (by decide)).1
      (fun _ => rfl) (fun _ => rfl)

/-- C8: in any terminating run of `sieve_lattice_batch`, every launch has
grid width `num_compute_units`, except when the current large-value chunk
`nq` is smaller than the output capacity, in which case the grid width is
`nq / threads_per_block`. -/
theorem claim_C8 (cfg : BatchCfg) (qT pT sqT lc dc r : Nat) (evs : List Ev)
    (lc' dc' : Nat)
    (hrun : sieve_lattice_batch cfg qT pT sqT lc dc = some (r, evs, lc', dc')) :
    ∀ nb nq np nsq, Ev.launch nb nq np nsq ∈ evs →
      nb = if nq < cfg.fa then nq / cfg.tpb else cfg.cu := by
  obtain ⟨st, hq, hr⟩ := batch_inv cfg qT pT sqT lc dc r evs lc' dc' hrun
  intro nb nq np nsq hmem
  exact qLoop_evs cfg _ _ _ _ _ _ _ _ _ _ _ hq _ hmem nb nq np nsq rfl

/-- C8 witness: a concrete run whose single launch has q chunk 2, smaller
than the output capacity 4, so its grid width is `2 / 2 = 1`, matching the
claimed rule. -/
theorem claim_C8_witness :
    Ev.launch 1 2 1 1 ∈ [Ev.launch 1 2 1 1, Ev.dlcheck]
    ∧ (1 : Nat) = if 2 < (4 : Nat) then 2 / 2 else 3 := by
  refine ⟨by decide, ?_⟩
  exact claim_C8 ⟨4, 2, 3, 100, 100, 2, fun _ => false, fun _ => false⟩
    2 1 1 0 0 0 [Ev.launch 1 2 1 1, Ev.dlcheck] 1 1 (by decide)
    1 2 1 1 (by decide)

/-- Helper: a refill never stores more pairs than the generator stream
holds. -/
theorem fill_le : ∀ (s : List GenItem) (alloc cnt : Nat),
    (fill alloc cnt s).1 ≤ cnt + sumPairs s := by
  intro s
  induction s with
  | nil => intro alloc cnt; simp [fill, sumPairs]
  | cons it rest ih =>
    intro alloc cnt
    have hsum : sumPairs (it :: rest) = it.2.length + sumPairs rest := by
      simp [sumPairs]
    simp only [fill]
    split
    · simp only [hsum]
      omega
    · have := ih alloc (cnt + min it.2.length (alloc - cnt))
      simp only [hsum]
      omega

/-- C9: if the large-value generator produces fewer than
`threads_per_block` candidate pairs in total, `sieve_specialq_64` performs
no kernel launch at all (empty trace, zero launch counter) and returns the
completed outcome. -/
theorem claim_C9 (tpb cu qsoa psoa sqsoa : Nat) (stop dl : Nat → Bool)
    (qs ps sqs : List GenItem) (h : sumPairs qs < tpb) :
    sieve_specialq_64 tpb cu qsoa psoa sqsoa stop dl qs ps sqs
      = some (0, [], 0, 0) := by
  have hle := fill_le qs (max 50000 (12 * (tpb * cu))) 0
  simp only [sieve_specialq_64, qRefill]
  rw [if_pos (show (fill (max 50000 (12 * (tpb * cu))) 0 qs).1 < tpb by omega)]

/-- C9 witness: a generator stream with a single (value, root) pair and
`threads_per_block = 2`: the driver exits before any launch. -/
theorem claim_C9_witness :
    sumPairs [((5 : Nat), [(1 : Nat)])] < 2
    ∧ sieve_specialq_64 2 3 100 100 2 (fun _ => false) (fun _ => false)
        [(5, [1])] [(3, [1, 2])] [(7, [1])] = some (0, [], 0, 0) :=
  ⟨by decide,
   claim_C9 2 3 100 100 2 (fun _ => false) (fun _ => false)
     [(5, [1])] [(3, [1, 2])] [(7, [1])] (by decide)⟩

end GpuSq
